import Mathlib

/-!
Shallow embedding of `dedekind.py`: a linear delay filter for spectral data.

The source has two functions:
* `linear_filter_matrix(nf, df, patch_c, patch_w, filter_factor, zero_flags,
  flags, cache, discrete_ft)` — builds (and caches in the module-level
  `WMAT_CACHE` dictionary) the pseudo-inverse of an "inverse filter" matrix;
* `dedekind(freqs, ydata, flags, ...)` — the pipeline: taper, weight matrix,
  matrix application, FFT, and output-domain selection.

Machine floats are modelled by real numbers; numpy arrays by lists and
`Fin n → ℂ` vectors / `Matrix (Fin n) (Fin n) ℂ`; Python exceptions by an
`Except` error monad with a small error type.  numpy broadcasting of a 1-d
length-`K` array against an `(nf, nf)` matrix is modelled faithfully: it is
valid only for `K = 1` (scalar-like) or `K = nf` (per-column), anything else
raises.  The Moore–Penrose pseudo-inverse (`np.linalg.pinv`) is modelled by
classical choice of a matrix satisfying the four Penrose equations (it is
unique when it exists, and all the facts proved below only use the equations).
-/

open scoped Classical
open Complex

noncomputable section

/-- Python/numpy exceptions that the embedded code can raise. -/
inductive PyErr where
  | valueError
  | indexError
  | nameError
  deriving DecidableEq

/-- numpy's normalized sinc: `sinc x = sin(π x)/(π x)`, with `sinc 0 = 1`. -/
def npSinc (x : ℝ) : ℝ :=
  if x = 0 then 1 else Real.sin (Real.pi * x) / (Real.pi * x)

/-- Line 23 of the source: `freqs = np.arange(-nf/2, nf/2) * df`, i.e.
`freqs[i] = (i - nf/2) * df`. -/
def freqsGrid (nf : ℕ) (df : ℝ) (i : Fin nf) : ℝ :=
  ((i : ℝ) - (nf : ℝ) / 2) * df

/-- The value of `freqs[i]` for a plain natural index (used where the source
indexes `freqs` after a bounds guard). -/
def freqsAt (nf : ℕ) (df : ℝ) (i : ℕ) : ℝ :=
  ((i : ℝ) - (nf : ℝ) / 2) * df

/-- Value semantics of numpy broadcasting a 1-d list against column index `j`
of an `(nf, nf)` matrix: a length-1 list acts as a scalar, a length-`nf` list
is indexed by the column.  (Other lengths are invalid; see `bcastOK`.) -/
def bcastVal (xs : List ℝ) (nf : ℕ) (j : Fin nf) : ℝ :=
  if xs.length = 1 then xs.headI else xs.getD (j : ℕ) 0

/-- Validity of broadcasting a 1-d length-`K` array against an `(nf, nf)`
matrix: `K = 1` or `K = nf`. -/
def bcastOK (xs : List ℝ) (nf : ℕ) : Prop :=
  xs.length = 1 ∨ xs.length = nf

instance (xs : List ℝ) (nf : ℕ) : Decidable (bcastOK xs nf) := by
  unfold bcastOK; infer_instance

/-- The matrix added on each iteration of the continuous-mode loop (line 32 of
the source).  Note two faithful details: `np.meshgrid(freqs, freqs)` gives
`fx[i,j] = freqs[j]` and `fy[i,j] = freqs[i]`, so `(fx - fy)[i,j]` is
`freqs[j] - freqs[i]`; and the loop body uses the whole lists `patch_w` and
`patch_c` (broadcast along columns), not the loop variables `cw`, `cp`. -/
def contTerm (nf : ℕ) (df ff : ℝ) (pc pw : List ℝ) :
    Matrix (Fin nf) (Fin nf) ℂ :=
  Matrix.of fun i j =>
    ((npSinc (2 * (freqsGrid nf df j - freqsGrid nf df i) * bcastVal pw nf j) : ℝ) : ℂ) *
      Complex.exp (-2 * (Real.pi : ℂ) * Complex.I *
        ((freqsGrid nf df j - freqsGrid nf df i : ℝ) : ℂ) * ((bcastVal pc nf j : ℝ) : ℂ)) /
      ((ff : ℝ) : ℂ)

/-- Lines 28–33 of the source (continuous mode): starting from the zero
matrix, iterate over `zip(patch_c, patch_w)` — `min` of the lengths many
iterations — and, when `filter_factor > 0`, add `contTerm` (the same matrix
every iteration, since the body reads the whole lists); then add the
identity.  Broadcasting an invalidly sized list raises `ValueError`. -/
def contInvFilter (nf : ℕ) (df ff : ℝ) (pc pw : List ℝ) :
    Except PyErr (Matrix (Fin nf) (Fin nf) ℂ) :=
  if 0 < ff ∧ 0 < min pc.length pw.length then
    if bcastOK pw nf ∧ bcastOK pc nf then
      .ok ((min pc.length pw.length) • contTerm nf df ff pc pw + 1)
    else .error .valueError
  else .ok 1

/-- Modelled from the spec's words (claim C1), for comparison with the
source's `contInvFilter`: the identity plus, for each individual patch
`(c, w)`, the term `sinc(2·(freqs[i]-freqs[j])·w) · exp(-2πi·(freqs[i]-freqs[j])·c)
/ filterFactor` using that patch's own scalar center and width. -/
def specPerPatchInvFilter (nf : ℕ) (df ff : ℝ) (pc pw : List ℝ) :
    Matrix (Fin nf) (Fin nf) ℂ :=
  1 + Matrix.of fun i j =>
    ((pc.zip pw).map (fun cw =>
      ((npSinc (2 * (freqsGrid nf df i - freqsGrid nf df j) * cw.2) : ℝ) : ℂ) *
        Complex.exp (-2 * (Real.pi : ℂ) * Complex.I *
          ((freqsGrid nf df i - freqsGrid nf df j : ℝ) : ℂ) * ((cw.1 : ℝ) : ℂ)) /
        ((ff : ℝ) : ℂ))).sum

/-- Lines 44–46 of the source: `filter_mat_inv[:, flags] = 0` and
`filter_mat_inv[flags, :] = 0` — zero every row and column whose index is
flagged. -/
def zeroFlagged (nf : ℕ) (flags : List Bool) (m : Matrix (Fin nf) (Fin nf) ℂ) :
    Matrix (Fin nf) (Fin nf) ℂ :=
  Matrix.of fun i j =>
    if flags.getD (i : ℕ) false = true ∨ flags.getD (j : ℕ) false = true then 0
    else m i j

/-- The four Penrose equations characterizing the Moore–Penrose
pseudo-inverse `p` of `a`. -/
def IsMoorePenrose {n : ℕ} (a p : Matrix (Fin n) (Fin n) ℂ) : Prop :=
  a * p * a = a ∧ p * a * p = p ∧
    (a * p).conjTranspose = a * p ∧ (p * a).conjTranspose = p * a

/-- Model of `np.linalg.pinv`: the Moore–Penrose pseudo-inverse, obtained by
choice from the Penrose equations (unique when it exists). -/
def pinv {n : ℕ} (a : Matrix (Fin n) (Fin n) ℂ) : Matrix (Fin n) (Fin n) ℂ :=
  if h : ∃ p, IsMoorePenrose a p then h.choose else 0

/-- A cached filter matrix together with its size (Python stores arrays of
any size under the flat dictionary keys). -/
structure CacheEntry where
  n : ℕ
  mat : Matrix (Fin n) (Fin n) ℂ

/-- A Python dict used as a matrix cache, modelled as an association list
from flattened keys to entries. -/
abbrev Cache := List (List ℝ × CacheEntry)

/-- Dictionary lookup (`wkey in WMAT_CACHE` / `WMAT_CACHE[wkey]`). -/
def cacheLookup (g : Cache) (k : List ℝ) : Option CacheEntry :=
  match g with
  | [] => none
  | (k₁, e) :: rest => if k₁ = k then some e else cacheLookup rest k

/-- Python numeric coercion of a bool inside a tuple key (`True == 1`). -/
def boolVal (b : Bool) : ℝ := if b then 1 else 0

/-- `tuple(np.where(flags)[0])`: the indices at which `flags` is true. -/
def trueIdx (flags : List Bool) : List ℕ :=
  (List.range flags.length).filter (fun i => flags.getD i false)

/-- Line 24–25 of the source: the cache key, a flat Python tuple
`(nf, freqs[1]-freqs[0], filter_factor, zero_flags, discrete_ft)
 + tuple(np.where(flags)[0]) + tuple(patch_c) + tuple(patch_w)`,
modelled as a flat list of reals (Python compares the mixed numeric entries
by value). -/
def wkey (nf : ℕ) (df1 ff : ℝ) (zf dft : Bool) (flags : List Bool)
    (pc pw : List ℝ) : List ℝ :=
  [(nf : ℝ), df1, ff, boolVal zf, boolVal dft] ++
    (trueIdx flags).map (fun i => (i : ℝ)) ++ pc ++ pw

/-- Lines 27–48 of the source: the un-cached build.  Discrete mode
(lines 34–43) unconditionally raises `NameError`: line 41 binds the meshgrid
outputs to `imag, jmat` but line 42 reads the undefined name `imat`.
Continuous mode builds `contInvFilter`; then flag-zeroing (requiring the
boolean mask length to match, else numpy raises `IndexError`), then
`np.linalg.pinv`. -/
def buildFilterMat (nf : ℕ) (df ff : ℝ) (pc pw : List ℝ) (zf : Bool)
    (flags : List Bool) (dft : Bool) :
    Except PyErr (Matrix (Fin nf) (Fin nf) ℂ) :=
  if dft then .error .nameError
  else
    match contInvFilter nf df ff pc pw with
    | .error e => .error e
    | .ok m =>
      if zf then
        if flags.length = nf then .ok (pinv (zeroFlagged nf flags m))
        else .error .indexError
      else .ok (pinv m)

/-- Result of one call to `linear_filter_matrix`: the returned entry, the
module-level `WMAT_CACHE` dictionary after the call, the caller-supplied
`cache` dictionary after the call, and whether a build was performed. -/
structure LFMOut where
  entry : CacheEntry
  globalC : Cache
  suppliedC : Cache
  built : Bool

/-- The key actually used by `linear_filter_matrix`: `wkey` with its second
component the computed difference `freqs[1] - freqs[0]`. -/
def lfmkey (nf : ℕ) (df ff : ℝ) (zf dft : Bool) (flags : List Bool)
    (pc pw : List ℝ) : List ℝ :=
  wkey nf (freqsAt nf df 1 - freqsAt nf df 0) ff zf dft flags pc pw

/-- Lines 7–51 of the source, `linear_filter_matrix`.  State is passed
explicitly: `suppliedCache` is the caller's `cache` argument and `globalCache`
is the module-level `WMAT_CACHE`.  Faithful details: the key computation reads
`freqs[1] - freqs[0]` (an `IndexError` when `nf < 2`); the membership test,
the store and the returned value all use the module-level `WMAT_CACHE`, never
the `cache` argument, which the function body does not mention. -/
def linearFilterMatrix (nf : ℕ) (df : ℝ) (pc pw : List ℝ) (ff : ℝ)
    (zf : Bool) (flags : List Bool) (suppliedCache globalCache : Cache)
    (dft : Bool) : Except PyErr LFMOut :=
  if 2 ≤ nf then
    match cacheLookup globalCache (lfmkey nf df ff zf dft flags pc pw) with
    | some e => .ok ⟨e, globalCache, suppliedCache, false⟩
    | none =>
      match buildFilterMat nf df ff pc pw zf flags dft with
      | .error e => .error e
      | .ok m =>
        .ok ⟨⟨nf, m⟩, (lfmkey nf df ff zf dft flags pc pw, ⟨nf, m⟩) :: globalCache,
          suppliedCache, true⟩
  else .error .indexError

/-- `np.fft.fft`: the forward discrete Fourier transform,
`X[k] = Σ_j x[j] · exp(-2πi·j·k/n)`. -/
def fftVec (n : ℕ) (v : Fin n → ℂ) : Fin n → ℂ :=
  fun k => ∑ j : Fin n,
    v j * Complex.exp (-2 * (Real.pi : ℂ) * Complex.I * (j : ℕ) * (k : ℕ) / (n : ℕ))

/-- `np.fft.ifft`: the inverse discrete Fourier transform,
`x[j] = (Σ_k X[k] · exp(2πi·j·k/n)) / n`. -/
def ifftVec (n : ℕ) (v : Fin n → ℂ) : Fin n → ℂ :=
  fun j => (∑ k : Fin n,
    v k * Complex.exp (2 * (Real.pi : ℂ) * Complex.I * (j : ℕ) * (k : ℕ) / (n : ℕ))) / (n : ℕ)

/-- `np.fft.fftshift` on a length-`n` vector: a cyclic shift,
`shift(x)[k] = x[(k + ⌈n/2⌉) mod n]`, placing the index-0 entry at
position `⌊n/2⌋`. -/
def fftshiftVec (n : ℕ) (v : Fin n → ℂ) : Fin n → ℂ :=
  fun k => v ⟨((k : ℕ) + (n + 1) / 2) % n, Nat.mod_lt _ (Nat.lt_of_le_of_lt (Nat.zero_le _) k.isLt)⟩

/-- Lines 81–83 of the source: fetch the named window from the external
window generator and normalize it so its mean square is 1
(`taper /= np.sqrt((taper*taper).mean())`).  The generator `getW` models the
external `scipy.signal.windows.get_window` collaborator. -/
def taperNorm (getW : String → ℕ → List ℝ) (tn : String) (nf : ℕ) (i : ℕ) : ℝ :=
  let t0 := getW tn nf
  t0.getD i 0 / Real.sqrt ((t0.map (fun y => y * y)).sum / (nf : ℝ))

/-- Lines 84–91 of the source: choice of the weight operator `wmat`.
`weights = "I"`: the identity, with flagged rows/columns zeroed when
`zero_flags` (numpy mask indexing raises `IndexError` when the boolean mask
length differs from `nf`).  `weights = "WTL"`: call `linear_filter_matrix`
with `df = freqs[1] - freqs[0]` taken from the caller's frequency list
(an `IndexError` when it has fewer than two entries); a cached entry of the
wrong size would fail at the subsequent matrix–vector product (shape
`ValueError`).  Any other `weights` value leaves `wmat` unbound, and Python
raises at the `np.dot(wmat, output)` line. -/
def dedekindWmatE (freqs : List ℝ) (flags : List Bool) (ff : ℝ)
    (pc pw : List ℝ) (weights : String) (zf : Bool) (suppliedCache globalCache : Cache) :
    Except PyErr (Matrix (Fin freqs.length) (Fin freqs.length) ℂ) :=
  if weights = "I" then
    if zf then
      if flags.length = freqs.length then .ok (zeroFlagged freqs.length flags 1)
      else .error .indexError
    else .ok 1
  else if weights = "WTL" then
    if h2 : 2 ≤ freqs.length then
      match linearFilterMatrix freqs.length
          (freqs.get ⟨1, by omega⟩ - freqs.get ⟨0, by omega⟩)
          pc pw ff zf flags suppliedCache globalCache false with
      | .error e => .error e
      | .ok o =>
        if hn : o.entry.n = freqs.length then .ok (cast (by rw [hn]) o.entry.mat)
        else .error .valueError
    else .error .indexError
  else .error .nameError

/-- Lines 92–94 of the source, given the selected weight operator: apply it
to the data (`np.dot` raises a shape `ValueError` on a length mismatch),
multiply by the normalized taper (a length mismatch of the generated window
likewise fails; `np.fft.fft` raises `ValueError` on zero points) and
forward-transform. -/
def dedekindApply (getW : String → ℕ → List ℝ) (tn : String) (freqs : List ℝ)
    (ydata : List ℂ) (wmat : Matrix (Fin freqs.length) (Fin freqs.length) ℂ) :
    Except PyErr (Fin freqs.length → ℂ) :=
  if hy : ydata.length = freqs.length then
    if freqs.length = 0 then .error .valueError
    else if (getW tn freqs.length).length = freqs.length then
      .ok (fftVec freqs.length
        (fun i => wmat.mulVec (fun j => ydata.get ⟨j, by omega⟩) i *
          ((taperNorm getW tn freqs.length i : ℝ) : ℂ)))
    else .error .valueError
  else .error .valueError

/-- Steps 2–5: weight-operator selection followed by application and the
forward transform. -/
def dedekindFv (getW : String → ℕ → List ℝ) (freqs : List ℝ) (ydata : List ℂ)
    (flags : List Bool) (ff : ℝ) (pc pw : List ℝ) (weights : String) (zf : Bool)
    (tn : String) (suppliedCache globalCache : Cache) :
    Except PyErr (Fin freqs.length → ℂ) :=
  match dedekindWmatE freqs flags ff pc pw weights zf suppliedCache globalCache with
  | .error e => .error e
  | .ok wmat => dedekindApply getW tn freqs ydata wmat

/-- Lines 107–114 of the source: output-domain selection applied to the
transformed spectrum.  `"frequency"` inverse-transforms and divides by the
taper, returning the caller's frequency axis unchanged; any other value
returns the delay axis `arange(-nf/2, nf/2)/((freqs[1]-freqs[0])·nf)`
(an `IndexError` when `nf < 2`) and the fft-shifted spectrum. -/
def dedekindOut (getW : String → ℕ → List ℝ) (tn : String) (freqs : List ℝ)
    (outputDomain : String) (s : Fin freqs.length → ℂ) :
    Except PyErr (List ℝ × List ℂ) :=
  if outputDomain = "frequency" then
    .ok (freqs, List.ofFn (fun i : Fin freqs.length =>
      ifftVec freqs.length s i / ((taperNorm getW tn freqs.length i : ℝ) : ℂ)))
  else
    if h2 : 2 ≤ freqs.length then
      .ok (List.ofFn (fun k : Fin freqs.length =>
            ((k : ℝ) - (freqs.length : ℝ) / 2) /
              ((freqs.get ⟨1, by omega⟩ - freqs.get ⟨0, by omega⟩) * (freqs.length : ℝ))),
          List.ofFn (fftshiftVec freqs.length s))
    else .error .indexError

/-- Lines 80–114 of the source, the `dedekind` pipeline. -/
def dedekind (getW : String → ℕ → List ℝ) (freqs : List ℝ) (ydata : List ℂ)
    (flags : List Bool) (ff : ℝ) (pc pw : List ℝ) (weights : String) (zf : Bool)
    (outputDomain : String) (tn : String) (suppliedCache globalCache : Cache) :
    Except PyErr (List ℝ × List ℂ) :=
  match dedekindFv getW freqs ydata flags ff pc pw weights zf tn suppliedCache globalCache with
  | .error e => .error e
  | .ok s => dedekindOut getW tn freqs outputDomain s

/-- Sum of the `n`-th roots of unity raised to the `m`-th power: `n` when
`n ∣ m`, zero otherwise. -/
lemma sum_exp_unit (n : ℕ) (hn : 0 < n) (m : ℤ) :
    (∑ k : Fin n, Complex.exp
        (2 * (Real.pi : ℂ) * Complex.I * (m : ℂ) * ((k : ℕ) : ℂ) / ((n : ℕ) : ℂ))) =
      if (n : ℤ) ∣ m then (n : ℂ) else 0 := by
  have hn0 : ((n : ℕ) : ℂ) ≠ 0 := Nat.cast_ne_zero.mpr hn.ne'
  have hterm : ∀ k : ℕ,
      Complex.exp (2 * (Real.pi : ℂ) * Complex.I * (m : ℂ) * (k : ℂ) / ((n : ℕ) : ℂ)) =
        Complex.exp (2 * (Real.pi : ℂ) * Complex.I * (m : ℂ) / ((n : ℕ) : ℂ)) ^ k := by
    intro k
    rw [← Complex.exp_nat_mul]
    congr 1
    ring
  have hsum : (∑ k : Fin n, Complex.exp
        (2 * (Real.pi : ℂ) * Complex.I * (m : ℂ) * ((k : ℕ) : ℂ) / ((n : ℕ) : ℂ))) =
      ∑ k ∈ Finset.range n,
        Complex.exp (2 * (Real.pi : ℂ) * Complex.I * (m : ℂ) / ((n : ℕ) : ℂ)) ^ k := by
    rw [← Fin.sum_univ_eq_sum_range
      (fun k => Complex.exp (2 * (Real.pi : ℂ) * Complex.I * (m : ℂ) / ((n : ℕ) : ℂ)) ^ k) n]
    exact Finset.sum_congr rfl fun k _ => hterm k
  rw [hsum]
  by_cases hdvd : (n : ℤ) ∣ m
  · obtain ⟨q, rfl⟩ := hdvd
    have hz : Complex.exp (2 * (Real.pi : ℂ) * Complex.I * (((n : ℤ) * q : ℤ) : ℂ) / ((n : ℕ) : ℂ)) = 1 := by
      have harg : 2 * (Real.pi : ℂ) * Complex.I * (((n : ℤ) * q : ℤ) : ℂ) / ((n : ℕ) : ℂ) =
          (q : ℂ) * (2 * (Real.pi : ℂ) * Complex.I) := by
        push_cast
        field_simp
        ring
      rw [harg]
      exact Complex.exp_int_mul_two_pi_mul_I q
    rw [if_pos (dvd_mul_right (n : ℤ) q)]
    simp only [hz, one_pow]
    simp
  · have hz : Complex.exp (2 * (Real.pi : ℂ) * Complex.I * (m : ℂ) / ((n : ℕ) : ℂ)) ≠ 1 := by
      intro hz1
      rw [Complex.exp_eq_one_iff] at hz1
      obtain ⟨t, ht⟩ := hz1
      have h2pi : (2 : ℂ) * (Real.pi : ℂ) * Complex.I ≠ 0 := by
        simp [Complex.ofReal_ne_zero.mpr Real.pi_ne_zero, Complex.I_ne_zero]
      have hmc : (m : ℂ) = (t : ℂ) * ((n : ℕ) : ℂ) := by
        apply mul_left_cancel₀ h2pi
        have ht' : 2 * (Real.pi : ℂ) * Complex.I * (m : ℂ) =
            (t : ℂ) * (2 * (Real.pi : ℂ) * Complex.I) * ((n : ℕ) : ℂ) := by
          field_simp at ht
          linear_combination ht
        calc 2 * (Real.pi : ℂ) * Complex.I * (m : ℂ)
            = (t : ℂ) * (2 * (Real.pi : ℂ) * Complex.I) * ((n : ℕ) : ℂ) := ht'
          _ = 2 * (Real.pi : ℂ) * Complex.I * ((t : ℂ) * ((n : ℕ) : ℂ)) := by ring
      have hmz : m = t * (n : ℤ) := by exact_mod_cast hmc
      exact hdvd ⟨t, by rw [hmz]; ring⟩
    rw [geom_sum_eq hz n]
    have hzn : Complex.exp (2 * (Real.pi : ℂ) * Complex.I * (m : ℂ) / ((n : ℕ) : ℂ)) ^ n = 1 := by
      rw [← Complex.exp_nat_mul]
      have harg : ((n : ℕ) : ℂ) * (2 * (Real.pi : ℂ) * Complex.I * (m : ℂ) / ((n : ℕ) : ℂ)) =
          (m : ℂ) * (2 * (Real.pi : ℂ) * Complex.I) := by
        field_simp
        ring
      rw [harg]
      exact Complex.exp_int_mul_two_pi_mul_I m
    rw [hzn]
    simp [hdvd]

/-- Discrete Fourier inversion: `ifft (fft v) = v`. -/
lemma ifft_fft (n : ℕ) (hn : 0 < n) (v : Fin n → ℂ) :
    ifftVec n (fftVec n v) = v := by
  funext j
  have hn0 : ((n : ℕ) : ℂ) ≠ 0 := Nat.cast_ne_zero.mpr hn.ne'
  have hchain : (∑ k : Fin n, (∑ l : Fin n,
        v l * Complex.exp (-2 * (Real.pi : ℂ) * Complex.I * ((l : ℕ) : ℂ) * ((k : ℕ) : ℂ) / ((n : ℕ) : ℂ))) *
        Complex.exp (2 * (Real.pi : ℂ) * Complex.I * ((j : ℕ) : ℂ) * ((k : ℕ) : ℂ) / ((n : ℕ) : ℂ))) =
      v j * ((n : ℕ) : ℂ) := by
    calc (∑ k : Fin n, (∑ l : Fin n,
          v l * Complex.exp (-2 * (Real.pi : ℂ) * Complex.I * ((l : ℕ) : ℂ) * ((k : ℕ) : ℂ) / ((n : ℕ) : ℂ))) *
          Complex.exp (2 * (Real.pi : ℂ) * Complex.I * ((j : ℕ) : ℂ) * ((k : ℕ) : ℂ) / ((n : ℕ) : ℂ)))
        = ∑ k : Fin n, ∑ l : Fin n,
            v l * Complex.exp (-2 * (Real.pi : ℂ) * Complex.I * ((l : ℕ) : ℂ) * ((k : ℕ) : ℂ) / ((n : ℕ) : ℂ)) *
              Complex.exp (2 * (Real.pi : ℂ) * Complex.I * ((j : ℕ) : ℂ) * ((k : ℕ) : ℂ) / ((n : ℕ) : ℂ)) := by
          exact Finset.sum_congr rfl fun k _ => Finset.sum_mul _ _ _
      _ = ∑ l : Fin n, ∑ k : Fin n,
            v l * Complex.exp (-2 * (Real.pi : ℂ) * Complex.I * ((l : ℕ) : ℂ) * ((k : ℕ) : ℂ) / ((n : ℕ) : ℂ)) *
              Complex.exp (2 * (Real.pi : ℂ) * Complex.I * ((j : ℕ) : ℂ) * ((k : ℕ) : ℂ) / ((n : ℕ) : ℂ)) :=
          Finset.sum_comm
      _ = ∑ l : Fin n, ∑ k : Fin n, v l * Complex.exp
            (2 * (Real.pi : ℂ) * Complex.I * ((((j : ℕ) : ℤ) - ((l : ℕ) : ℤ) : ℤ) : ℂ) * ((k : ℕ) : ℂ) / ((n : ℕ) : ℂ)) := by
          refine Finset.sum_congr rfl fun l _ => Finset.sum_congr rfl fun k _ => ?_
          rw [mul_assoc, ← Complex.exp_add]
          congr 2
          push_cast
          ring
      _ = ∑ l : Fin n, v l * ∑ k : Fin n, Complex.exp
            (2 * (Real.pi : ℂ) * Complex.I * ((((j : ℕ) : ℤ) - ((l : ℕ) : ℤ) : ℤ) : ℂ) * ((k : ℕ) : ℂ) / ((n : ℕ) : ℂ)) := by
          exact Finset.sum_congr rfl fun l _ => (Finset.mul_sum _ _ _).symm
      _ = ∑ l : Fin n, v l * (if (n : ℤ) ∣ (((j : ℕ) : ℤ) - ((l : ℕ) : ℤ)) then ((n : ℕ) : ℂ) else 0) := by
          exact Finset.sum_congr rfl fun l _ => by
            rw [sum_exp_unit n hn (((j : ℕ) : ℤ) - ((l : ℕ) : ℤ))]
      _ = v j * ((n : ℕ) : ℂ) := by
          rw [Finset.sum_eq_single j]
          · simp
          · intro l _ hlj
            have hnd : ¬ (n : ℤ) ∣ (((j : ℕ) : ℤ) - ((l : ℕ) : ℤ)) := by
              intro hd
              have habs : |(((j : ℕ) : ℤ) - ((l : ℕ) : ℤ))| < (n : ℤ) := by
                rw [abs_lt]
                have hj := j.isLt
                have hl := l.isLt
                omega
              have hz := Int.eq_zero_of_abs_lt_dvd hd habs
              have hv : (l : ℕ) = (j : ℕ) := by omega
              exact hlj (Fin.ext hv)
            simp [hnd]
          · intro hj
            exact absurd (Finset.mem_univ j) hj
  show (∑ k : Fin n, fftVec n v k *
      Complex.exp (2 * (Real.pi : ℂ) * Complex.I * ((j : ℕ) : ℂ) * ((k : ℕ) : ℂ) / ((n : ℕ) : ℂ))) / ((n : ℕ) : ℂ) = v j
  unfold fftVec
  rw [hchain, mul_div_assoc, div_self hn0, mul_one]

/-- A flagged row of the flag-zeroed matrix is zero. -/
lemma zeroFlagged_row {nf : ℕ} (flags : List Bool) (m : Matrix (Fin nf) (Fin nf) ℂ)
    (f : Fin nf) (hf : flags.getD (f : ℕ) false = true) (k : Fin nf) :
    zeroFlagged nf flags m f k = 0 := by
  unfold zeroFlagged
  simp only [Matrix.of_apply]
  rw [if_pos (Or.inl hf)]

/-- A flagged column of the flag-zeroed matrix is zero. -/
lemma zeroFlagged_col {nf : ℕ} (flags : List Bool) (m : Matrix (Fin nf) (Fin nf) ℂ)
    (f : Fin nf) (hf : flags.getD (f : ℕ) false = true) (k : Fin nf) :
    zeroFlagged nf flags m k f = 0 := by
  unfold zeroFlagged
  simp only [Matrix.of_apply]
  rw [if_pos (Or.inr hf)]

/-- If row `f` of `a` is zero, then column `f` of its Moore–Penrose
pseudo-inverse is zero: the column of a pseudo-inverse corresponding to a
zero row (here, a flag-zeroed channel) survives as zero. -/
lemma pinv_col_zero {n : ℕ} (a : Matrix (Fin n) (Fin n) ℂ) (f : Fin n)
    (hrow : ∀ k, a f k = 0) (i : Fin n) : pinv a i f = 0 := by
  by_cases h : ∃ p, IsMoorePenrose a p
  · have hspec := h.choose_spec
    obtain ⟨h1, h2, h3, h4⟩ := hspec
    have hpf : pinv a = h.choose := by rw [pinv, dif_pos h]
    set p := h.choose with hp
    have hap : ∀ i₁, (a * p) i₁ f = 0 := by
      intro i₁
      have he : (a * p) i₁ f = ((a * p).conjTranspose) i₁ f := by rw [h3]
      rw [he, Matrix.conjTranspose_apply]
      have hz : (a * p) f i₁ = 0 := by
        rw [Matrix.mul_apply]
        exact Finset.sum_eq_zero fun k _ => by rw [hrow k, zero_mul]
      rw [hz, star_zero]
    have hstep : p i f = (p * (a * p)) i f := by
      rw [← Matrix.mul_assoc, h2]
    rw [hpf, hstep, Matrix.mul_apply]
    exact Finset.sum_eq_zero fun k _ => by rw [hap k, mul_zero]
  · rw [pinv, dif_neg h]
    rfl

/-- The normalized sinc vanishes at 1. -/
lemma npSinc_one : npSinc 1 = 0 := by
  unfold npSinc
  rw [if_neg one_ne_zero, mul_one, Real.sin_pi, zero_div]

/-- The normalized sinc vanishes at -1. -/
lemma npSinc_neg_one : npSinc (-1) = 0 := by
  unfold npSinc
  rw [if_neg (by norm_num)]
  have h : Real.pi * (-1) = -Real.pi := by ring
  rw [h, Real.sin_neg, Real.sin_pi, neg_zero, zero_div]

/-- The normalized sinc at -1/2 equals `2/π`. -/
lemma npSinc_neg_half : npSinc (-(1 / 2)) = 2 / Real.pi := by
  unfold npSinc
  rw [if_neg (by norm_num)]
  have h : Real.pi * (-(1 / 2)) = -(Real.pi / 2) := by ring
  rw [h, Real.sin_neg, Real.sin_pi_div_two]
  rw [div_eq_div_iff (neg_ne_zero.mpr (div_ne_zero Real.pi_ne_zero two_ne_zero))
    Real.pi_ne_zero]
  ring

/-- Looking up the key just inserted at the front of the cache finds it. -/
lemma cacheLookup_cons_self (g : Cache) (k : List ℝ) (e : CacheEntry) :
    cacheLookup ((k, e) :: g) k = some e := by
  unfold cacheLookup
  rw [if_pos rfl]

/-- With an empty patch list (either of the two zipped lists) or a
non-positive filter factor, the continuous-mode build succeeds and
pseudo-inverts exactly the identity with optional flag-zeroing. -/
lemma buildFilterMat_trivial (nf : ℕ) (df ff : ℝ) (pc pw : List ℝ) (zf : Bool)
    (flags : List Bool) (hcase : pc = [] ∨ pw = [] ∨ ff ≤ 0)
    (hflags : zf = true → flags.length = nf) :
    buildFilterMat nf df ff pc pw zf flags false =
      .ok (pinv (if zf then zeroFlagged nf flags 1 else 1)) := by
  have hcont : contInvFilter nf df ff pc pw = .ok 1 := by
    unfold contInvFilter
    rw [if_neg]
    rintro ⟨hff, hmin⟩
    rcases hcase with h | h | h
    · rw [h] at hmin; simp at hmin
    · rw [h] at hmin; simp at hmin
    · exact absurd hff (not_lt.mpr h)
  cases zf with
  | false => simp only [buildFilterMat, Bool.false_eq_true, if_false, hcont]
  | true =>
    simp only [buildFilterMat, Bool.false_eq_true, if_false, hcont, if_true,
      hflags rfl, if_pos]

/-- The builder, called on an empty module cache with an empty patch list or
non-positive filter factor in continuous mode, stores and returns the
pseudo-inverse of the flag-zeroed identity. -/
lemma linearFilterMatrix_trivial
    (nf : ℕ) (df ff : ℝ) (pc pw : List ℝ) (zf : Bool) (flags : List Bool)
    (sc : Cache) (h2 : 2 ≤ nf) (hcase : pc = [] ∨ pw = [] ∨ ff ≤ 0)
    (hflags : zf = true → flags.length = nf) :
    linearFilterMatrix nf df pc pw ff zf flags sc [] false =
      .ok ⟨⟨nf, pinv (if zf then zeroFlagged nf flags 1 else 1)⟩,
        [(lfmkey nf df ff zf false flags pc pw,
          ⟨nf, pinv (if zf then zeroFlagged nf flags 1 else 1)⟩)], sc, true⟩ := by
  unfold linearFilterMatrix
  rw [if_pos h2]
  have hl : cacheLookup ([] : Cache) (lfmkey nf df ff zf false flags pc pw) = none := rfl
  rw [hl, buildFilterMat_trivial nf df ff pc pw zf flags hcase hflags]

/-- An error in weight-operator selection propagates through `dedekindFv`. -/
lemma dedekindFv_err (getW : String → ℕ → List ℝ) (freqs : List ℝ)
    (ydata : List ℂ) (flags : List Bool) (ff : ℝ) (pc pw : List ℝ)
    (weights : String) (zf : Bool) (tn : String) (sc g : Cache) (e : PyErr)
    (h : dedekindWmatE freqs flags ff pc pw weights zf sc g = .error e) :
    dedekindFv getW freqs ydata flags ff pc pw weights zf tn sc g = .error e := by
  unfold dedekindFv
  rw [h]

/-- A successful weight-operator selection reduces `dedekindFv` to
`dedekindApply`. -/
lemma dedekindFv_okw (getW : String → ℕ → List ℝ) (freqs : List ℝ)
    (ydata : List ℂ) (flags : List Bool) (ff : ℝ) (pc pw : List ℝ)
    (weights : String) (zf : Bool) (tn : String) (sc g : Cache)
    (wmat : Matrix (Fin freqs.length) (Fin freqs.length) ℂ)
    (h : dedekindWmatE freqs flags ff pc pw weights zf sc g = .ok wmat) :
    dedekindFv getW freqs ydata flags ff pc pw weights zf tn sc g =
      dedekindApply getW tn freqs ydata wmat := by
  unfold dedekindFv
  rw [h]

/-- An error in the transform stage propagates through `dedekind`. -/
lemma dedekind_err (getW : String → ℕ → List ℝ) (freqs : List ℝ)
    (ydata : List ℂ) (flags : List Bool) (ff : ℝ) (pc pw : List ℝ)
    (weights : String) (zf : Bool) (outputDomain tn : String) (sc g : Cache)
    (e : PyErr)
    (h : dedekindFv getW freqs ydata flags ff pc pw weights zf tn sc g = .error e) :
    dedekind getW freqs ydata flags ff pc pw weights zf outputDomain tn sc g =
      .error e := by
  unfold dedekind
  rw [h]

/-- A successful transform stage reduces `dedekind` to the output-domain
branch. -/
lemma dedekind_oks (getW : String → ℕ → List ℝ) (freqs : List ℝ)
    (ydata : List ℂ) (flags : List Bool) (ff : ℝ) (pc pw : List ℝ)
    (weights : String) (zf : Bool) (outputDomain tn : String) (sc g : Cache)
    (s : Fin freqs.length → ℂ)
    (h : dedekindFv getW freqs ydata flags ff pc pw weights zf tn sc g = .ok s) :
    dedekind getW freqs ydata flags ff pc pw weights zf outputDomain tn sc g =
      dedekindOut getW tn freqs outputDomain s := by
  unfold dedekind
  rw [h]

/-- If the generated window has length `nf` and no zero entries, every entry
of the normalized taper is nonzero. -/
lemma taperNorm_ne_zero (getW : String → ℕ → List ℝ) (tn : String) (nf : ℕ)
    (hn : 0 < nf) (ht : (getW tn nf).length = nf)
    (htz : ∀ x ∈ getW tn nf, x ≠ 0) (i : ℕ) (hi : i < nf) :
    taperNorm getW tn nf i ≠ 0 := by
  unfold taperNorm
  have hnum : (getW tn nf).getD i 0 ≠ 0 := by
    have hmem : (getW tn nf).getD i 0 ∈ getW tn nf := by
      rw [List.getD_eq_getElem (getW tn nf) 0 (by omega)]
      exact List.getElem_mem _
    exact htz _ hmem
  have hden : Real.sqrt (((getW tn nf).map (fun y => y * y)).sum / (nf : ℝ)) ≠ 0 := by
    have hpos : 0 < ((getW tn nf).map (fun y => y * y)).sum := by
      apply List.sum_pos
      · intro x hx
        obtain ⟨y, hy, rfl⟩ := List.mem_map.mp hx
        exact mul_self_pos.mpr (htz y hy)
      · intro hnil
        have : (getW tn nf).length = 0 := by
          have := congrArg List.length hnil
          simpa using this
        omega
    have : 0 < ((getW tn nf).map (fun y => y * y)).sum / (nf : ℝ) :=
      div_pos hpos (by exact_mod_cast hn)
    exact (Real.sqrt_pos.mpr this).ne'
  exact div_ne_zero hnum hden

/-- With the identity weight operator, no flag zeroing and frequency output,
the pipeline returns the frequency axis and data unchanged (forward plus
inverse transform with taper undo). -/
lemma dedekind_I_freq (getW : String → ℕ → List ℝ) (freqs : List ℝ)
    (ydata : List ℂ) (flags : List Bool) (ff : ℝ) (pc pw : List ℝ)
    (tn : String) (sc g : Cache)
    (hn : 0 < freqs.length) (hy : ydata.length = freqs.length)
    (ht : (getW tn freqs.length).length = freqs.length)
    (htz : ∀ x ∈ getW tn freqs.length, x ≠ 0) :
    dedekind getW freqs ydata flags ff pc pw "I" false "frequency" tn sc g =
      .ok (freqs, ydata) := by
  have hwm : dedekindWmatE freqs flags ff pc pw "I" false sc g = .ok 1 := by
    unfold dedekindWmatE
    rw [if_pos rfl]
    rfl
  have happ : dedekindApply getW tn freqs ydata
      (1 : Matrix (Fin freqs.length) (Fin freqs.length) ℂ) =
      .ok (fftVec freqs.length
        (fun i => (1 : Matrix (Fin freqs.length) (Fin freqs.length) ℂ).mulVec
          (fun j => ydata.get ⟨j, by omega⟩) i *
          ((taperNorm getW tn freqs.length i : ℝ) : ℂ))) := by
    unfold dedekindApply
    rw [dif_pos hy, if_neg (by omega), if_pos ht]
  have hfv := (dedekindFv_okw getW freqs ydata flags ff pc pw "I" false tn sc g 1 hwm).trans happ
  rw [dedekind_oks getW freqs ydata flags ff pc pw "I" false "frequency" tn sc g _ hfv]
  unfold dedekindOut
  rw [if_pos rfl]
  refine congrArg _ (congrArg _ ?_)
  have hvt : (fun i => (1 : Matrix (Fin freqs.length) (Fin freqs.length) ℂ).mulVec
      (fun j => ydata.get ⟨j, by omega⟩) i *
      ((taperNorm getW tn freqs.length i : ℝ) : ℂ)) =
      fun i : Fin freqs.length => ydata.get ⟨i, by omega⟩ *
        ((taperNorm getW tn freqs.length i : ℝ) : ℂ) := by
    funext i
    rw [Matrix.one_mulVec]
  rw [hvt, ifft_fft freqs.length hn]
  apply List.ext_get (by simp [hy])
  intro n h1 h2
  rw [List.get_ofFn]
  have htn : ((taperNorm getW tn freqs.length n : ℝ) : ℂ) ≠ 0 := by
    rw [Complex.ofReal_ne_zero]
    exact taperNorm_ne_zero getW tn freqs.length hn ht htz n (by simpa using h1)
  exact mul_div_cancel_right₀ _ htn

/-- Applying a matrix transported along an equality of sizes. -/
lemma cast_matrix_apply {k n : ℕ} (hk : k = n)
    (h : Matrix (Fin k) (Fin k) ℂ = Matrix (Fin n) (Fin n) ℂ)
    (m : Matrix (Fin k) (Fin k) ℂ) (i j : Fin n) :
    cast h m i j = m ⟨i, by omega⟩ ⟨j, by omega⟩ := by
  subst hk
  rw [cast_eq]

/-- A successful continuous-mode builder call on an empty module cache comes
from a fresh build: the stored entry is the built matrix at size `nf`. -/
lemma linearFilterMatrix_fresh_cont
    (nf : ℕ) (df : ℝ) (pc pw : List ℝ) (ff : ℝ) (zf : Bool) (flags : List Bool)
    (sc : Cache) (o : LFMOut)
    (h : linearFilterMatrix nf df pc pw ff zf flags sc [] false = .ok o) :
    ∃ m, buildFilterMat nf df ff pc pw zf flags false = .ok m ∧
      o = ⟨⟨nf, m⟩, (lfmkey nf df ff zf false flags pc pw, ⟨nf, m⟩) :: [], sc, true⟩ := by
  unfold linearFilterMatrix at h
  by_cases h2 : 2 ≤ nf
  · rw [if_pos h2] at h
    have hnone : cacheLookup ([] : Cache) (lfmkey nf df ff zf false flags pc pw) = none := rfl
    rw [hnone] at h
    cases hb : buildFilterMat nf df ff pc pw zf flags false with
    | error e => rw [hb] at h; exact absurd h (by simp)
    | ok m =>
      rw [hb] at h
      injection h with h1
      exact ⟨m, rfl, h1.symm⟩
  · rw [if_neg h2] at h
    exact absurd h (by simp)

/-- A successful continuous-mode build with `zero_flags` produces a matrix
whose columns at flagged indices are zero (the zero column survives the
pseudo-inverse). -/
lemma buildFilterMat_zf_col_zero
    (nf : ℕ) (df ff : ℝ) (pc pw : List ℝ) (flags : List Bool)
    (m : Matrix (Fin nf) (Fin nf) ℂ)
    (hb : buildFilterMat nf df ff pc pw true flags false = .ok m)
    (j : Fin nf) (hf : flags.getD (j : ℕ) false = true) (i : Fin nf) :
    m i j = 0 := by
  unfold buildFilterMat at hb
  rw [if_neg Bool.false_ne_true] at hb
  split at hb
  next e heq => exact absurd hb (by simp)
  next minv heq =>
    rw [if_pos rfl] at hb
    by_cases hfl : flags.length = nf
    · rw [if_pos hfl] at hb
      injection hb with h1
      rw [← h1]
      exact pinv_col_zero (zeroFlagged nf flags minv) j
        (fun k => zeroFlagged_row flags minv j hf k) i
    · rw [if_neg hfl] at hb
      exact absurd hb (by simp)

/-- In either supported weights mode, with `zero_flags` on and a fresh module
cache, the selected weight operator has zero columns at flagged indices. -/
lemma dedekindWmatE_flagged_col_zero
    (freqs : List ℝ) (flags : List Bool) (ff : ℝ) (pc pw : List ℝ)
    (weights : String) (sc : Cache)
    (hw : weights = "I" ∨ weights = "WTL")
    (wmat : Matrix (Fin freqs.length) (Fin freqs.length) ℂ)
    (h : dedekindWmatE freqs flags ff pc pw weights true sc [] = .ok wmat)
    (i j : Fin freqs.length) (hf : flags.getD (j : ℕ) false = true) :
    wmat i j = 0 := by
  rcases hw with hw | hw
  · subst hw
    unfold dedekindWmatE at h
    rw [if_pos rfl, if_pos rfl] at h
    by_cases hfl : flags.length = freqs.length
    · rw [if_pos hfl] at h
      injection h with h1
      rw [← h1]
      exact zeroFlagged_col flags 1 j hf i
    · rw [if_neg hfl] at h
      exact absurd h (by simp)
  · subst hw
    unfold dedekindWmatE at h
    rw [if_neg (by decide), if_pos rfl] at h
    split at h
    · split at h
      next e heq => exact absurd h (by simp)
      next o heq =>
        obtain ⟨m, hb, rfl⟩ := linearFilterMatrix_fresh_cont freqs.length _ pc pw ff true flags sc o heq
        split at h
        next hn =>
          injection h with h1
          rw [← h1, cast_matrix_apply rfl]
          exact buildFilterMat_zf_col_zero freqs.length _ ff pc pw flags m hb
            ⟨j, j.isLt⟩ hf ⟨i, i.isLt⟩
        next hn => exact absurd h (by simp)
    · exact absurd h (by simp)

end

/-- C2: in discrete mode the spec says the builder returns the pseudo-inverse
of `F · diag(d) · conj(F)ᵗ` and completes without raising; in the source,
line 41 binds the meshgrid outputs to `imag, jmat` while line 42 reads the
undefined name `imat`, so every discrete-mode build raises `NameError`.
Evaluated at `nf = 4, df = 1, patch_c = [0], patch_w = [1], filter_factor = 1`,
no flags, fresh caches. -/
theorem discrete_mode_always_raises :
    linearFilterMatrix 4 1 [0] [1] 1 false [false, false, false, false] [] [] true =
      .error PyErr.nameError := rfl

/-- C8: in continuous mode, with an empty patch list or a non-positive
filter factor, the builder raises no error, the suppression term is skipped,
and the matrix handed to the pseudo-inverse is exactly the identity with
flagged rows/columns zeroed when `zero_flags` is set. -/
theorem trivial_filter_is_flagged_identity
    (nf : ℕ) (df ff : ℝ) (pc pw : List ℝ) (zf : Bool) (flags : List Bool)
    (sc : Cache) (h2 : 2 ≤ nf) (hcase : pc = [] ∨ pw = [] ∨ ff ≤ 0)
    (hflags : zf = true → flags.length = nf) :
    linearFilterMatrix nf df pc pw ff zf flags sc [] false =
      .ok ⟨⟨nf, pinv (if zf then zeroFlagged nf flags 1 else 1)⟩,
        [(lfmkey nf df ff zf false flags pc pw,
          ⟨nf, pinv (if zf then zeroFlagged nf flags 1 else 1)⟩)], sc, true⟩ :=
  linearFilterMatrix_trivial nf df ff pc pw zf flags sc h2 hcase hflags

/-- Witness for C8: a non-positive filter factor (`0`) with a non-empty patch
list, `zero_flags` set, flags `[true, false]`: the build succeeds and inverts
the flag-zeroed identity. -/
theorem trivial_filter_is_flagged_identity_witness :
    linearFilterMatrix 2 1 [0] [1] 0 true [true, false] [] [] false =
      .ok ⟨⟨2, pinv (zeroFlagged 2 [true, false] 1)⟩,
        [(lfmkey 2 1 0 true false [true, false] [0] [1],
          ⟨2, pinv (zeroFlagged 2 [true, false] 1)⟩)], [], true⟩ :=
  trivial_filter_is_flagged_identity 2 1 0 [0] [1] true [true, false] []
    (by omega) (Or.inr (Or.inr le_rfl)) (fun _ => rfl)

/-- C3: if a call to the filter-matrix builder succeeds, a second call with
the same parameters against the resulting module cache returns the identical
stored entry, performs no rebuild, and leaves the cache unchanged. -/
theorem second_call_hits_cache
    (nf : ℕ) (df : ℝ) (pc pw : List ℝ) (ff : ℝ) (zf : Bool) (flags : List Bool)
    (sc g : Cache) (dft : Bool) (o : LFMOut)
    (h : linearFilterMatrix nf df pc pw ff zf flags sc g dft = .ok o) :
    linearFilterMatrix nf df pc pw ff zf flags sc o.globalC dft =
      .ok ⟨o.entry, o.globalC, sc, false⟩ := by
  unfold linearFilterMatrix at h ⊢
  by_cases h2 : 2 ≤ nf
  · rw [if_pos h2] at h ⊢
    cases hcl : cacheLookup g (lfmkey nf df ff zf dft flags pc pw) with
    | some e =>
      rw [hcl] at h
      injection h with h1
      subst h1
      dsimp only
      rw [hcl]
    | none =>
      rw [hcl] at h
      cases hb : buildFilterMat nf df ff pc pw zf flags dft with
      | error e => rw [hb] at h; exact absurd h (by simp)
      | ok m =>
        rw [hb] at h
        injection h with h1
        subst h1
        dsimp only
        rw [cacheLookup_cons_self]
  · rw [if_neg h2] at h
    exact absurd h (by simp)

/-- Witness for C3: a concrete first call (fresh caches, no patches) builds
and stores; the second call returns the identical entry without rebuilding. -/
theorem second_call_hits_cache_witness :
    ∃ o : LFMOut,
      linearFilterMatrix 2 1 [] [] 1 false [] [] [] false = .ok o ∧
      o.built = true ∧
      linearFilterMatrix 2 1 [] [] 1 false [] [] o.globalC false =
        .ok ⟨o.entry, o.globalC, [], false⟩ := by
  have h : linearFilterMatrix 2 1 [] [] 1 false [] [] [] false =
      .ok ⟨⟨2, pinv 1⟩, [(lfmkey 2 1 1 false false [] [] [], ⟨2, pinv 1⟩)], [], true⟩ :=
    linearFilterMatrix_trivial 2 1 1 [] [] false [] [] (by omega)
      (Or.inl rfl) (by simp)
  exact ⟨_, h, rfl, second_call_hits_cache 2 1 [] [] 1 false [] [] [] false _ h⟩

/-- C4: the spec says a caller-supplied private mapping is used for lookup
and store with the process-wide default cache left unchanged.  In the source
the `cache` parameter is never read: even when the supplied mapping already
holds the exact key, the builder rebuilds, stores into the module-level
`WMAT_CACHE` (which changes), and returns the supplied mapping untouched. -/
theorem supplied_cache_is_ignored :
    ∃ o : LFMOut,
      linearFilterMatrix 2 1 [] [] 2 false [false, false]
        [(lfmkey 2 1 2 false false [false, false] [] [], ⟨0, 0⟩)] [] false = .ok o ∧
      o.built = true ∧
      o.suppliedC = [(lfmkey 2 1 2 false false [false, false] [] [], ⟨0, 0⟩)] ∧
      o.globalC ≠ [] := by
  have h := linearFilterMatrix_trivial 2 1 2 [] [] false [false, false]
    [(lfmkey 2 1 2 false false [false, false] [] [], ⟨0, 0⟩)] (by omega)
    (Or.inl rfl) (by simp)
  exact ⟨_, h, rfl, rfl, by simp⟩

/-- C1: the spec says the continuous-mode inverse filter adds, for each
patch, a term built from that patch's own scalar center and width.  The
source's loop body instead broadcasts the whole `patch_c`/`patch_w` lists
(the loop variables `cp`, `cw` are never read).  At `nf = 2, df = 1,
filter_factor = 1, patch_c = [0, 0], patch_w = [1/4, 1/2]` the code's matrix
has entry `(0,1)` equal to `0` (column 1 uses only the width `1/2`), while
the claim's per-patch formula gives `2/π ≠ 0` there. -/
theorem continuous_mode_broadcasts_whole_lists :
    ∃ m, contInvFilter 2 1 1 [0, 0] [1 / 4, 1 / 2] = .ok m ∧
      m 0 1 = 0 ∧
      specPerPatchInvFilter 2 1 1 [0, 0] [1 / 4, 1 / 2] 0 1 = ((2 / Real.pi : ℝ) : ℂ) ∧
      ((2 / Real.pi : ℝ) : ℂ) ≠ 0 := by
  have hf1 : freqsGrid 2 1 1 = 0 := by
    unfold freqsGrid
    norm_num
  have hf0 : freqsGrid 2 1 0 = -1 := by
    unfold freqsGrid
    norm_num
  refine ⟨(min (List.length [(0 : ℝ), 0]) (List.length [(1 : ℝ) / 4, 1 / 2])) •
      contTerm 2 1 1 [0, 0] [1 / 4, 1 / 2] + 1, ?_, ?_, ?_, ?_⟩
  · unfold contInvFilter
    rw [if_pos ⟨one_pos, by norm_num⟩, if_pos ⟨Or.inr rfl, Or.inr rfl⟩]
  · have hterm : contTerm 2 1 1 [0, 0] [1 / 4, 1 / 2] 0 1 = 0 := by
      unfold contTerm bcastVal
      simp only [Matrix.of_apply, hf1, hf0]
      norm_num
      exact npSinc_one
    show (min (List.length [(0 : ℝ), 0]) (List.length [(1 : ℝ) / 4, 1 / 2])) •
        contTerm 2 1 1 [0, 0] [1 / 4, 1 / 2] 0 1 + (1 : Matrix (Fin 2) (Fin 2) ℂ) 0 1 = 0
    rw [hterm, Matrix.one_apply_ne (by decide)]
    simp
  · unfold specPerPatchInvFilter
    show (1 : Matrix (Fin 2) (Fin 2) ℂ) 0 1 + _ = _
    rw [Matrix.one_apply_ne (by decide)]
    simp only [List.zip, List.zipWith, List.map, List.sum, Matrix.of_apply, hf1, hf0]
    norm_num
    rw [npSinc_neg_half, npSinc_neg_one]
    push_cast
    ring
  · rw [Complex.ofReal_ne_zero]
    exact div_ne_zero two_ne_zero Real.pi_ne_zero

/-- C7: with `weights = "I"`, `zero_flags = false`, `output_domain =
"frequency"` and a taper window of the right length with no zero entries, the
pipeline returns the original frequency axis and the original data exactly
(in the real-number model; the claim's floating-point tolerance is exact
here). -/
theorem identity_frequency_roundtrip
    (getW : String → ℕ → List ℝ) (freqs : List ℝ) (ydata : List ℂ)
    (flags : List Bool) (ff : ℝ) (pc pw : List ℝ) (tn : String) (sc g : Cache)
    (hn : 0 < freqs.length) (hy : ydata.length = freqs.length)
    (ht : (getW tn freqs.length).length = freqs.length)
    (htz : ∀ x ∈ getW tn freqs.length, x ≠ 0) :
    dedekind getW freqs ydata flags ff pc pw "I" false "frequency" tn sc g =
      .ok (freqs, ydata) :=
  dedekind_I_freq getW freqs ydata flags ff pc pw tn sc g hn hy ht htz

/-- Witness for C7: a boxcar window of ones, two channels. -/
theorem identity_frequency_roundtrip_witness :
    dedekind (fun _ n => List.replicate n 1) [0, 1] [8, 9] [] 1 [] [] "I" false
      "frequency" "boxcar" [] [] = .ok ([0, 1], [8, 9]) :=
  identity_frequency_roundtrip (fun _ n => List.replicate n 1) [0, 1] [8, 9]
    [] 1 [] [] "boxcar" [] [] (by norm_num) (by norm_num) (by norm_num)
    (by intro x hx; rw [List.eq_of_mem_replicate hx]; norm_num)

/-- C6 counterexample: a flags array of length 3 against frequency and data
axes of length 2 is a mismatched-length configuration, yet with
`weights = "I"`, `zero_flags = false` the pipeline raises nothing and
completes normally — the claim says such a call must raise before any
computation proceeds. -/
theorem mismatched_flags_silently_ignored :
    dedekind (fun _ n => List.replicate n 1) [0, 1] [1, 2] [true, true, true]
      1 [] [] "I" false "frequency" "boxcar" [] [] = .ok ([0, 1], [1, 2]) :=
  dedekind_I_freq (fun _ n => List.replicate n 1) [0, 1] [1, 2]
    [true, true, true] 1 [] [] "boxcar" [] [] (by norm_num) (by norm_num)
    (by norm_num) (by intro x hx; rw [List.eq_of_mem_replicate hx]; norm_num)

/-- C6 amended: a `weights` value other than `"I"` and `"WTL"` always raises
(the weight matrix stays unbound and the application step fails with a
`NameError`-class error), never silently defaulting; but the error is not an
up-front validation — taper construction runs first, and other misconfigurations
(length mismatches, empty axis) surface only from later array operations,
some not at all. -/
theorem unknown_weights_mode_raises
    (getW : String → ℕ → List ℝ) (freqs : List ℝ) (ydata : List ℂ)
    (flags : List Bool) (ff : ℝ) (pc pw : List ℝ) (weights : String)
    (zf : Bool) (outputDomain tn : String) (sc g : Cache)
    (hw1 : weights ≠ "I") (hw2 : weights ≠ "WTL") :
    dedekind getW freqs ydata flags ff pc pw weights zf outputDomain tn sc g =
      .error PyErr.nameError := by
  apply dedekind_err
  apply dedekindFv_err
  unfold dedekindWmatE
  rw [if_neg hw1, if_neg hw2]

/-- Witness for C6's amended claim: `weights = "X"` raises. -/
theorem unknown_weights_mode_raises_witness :
    dedekind (fun _ n => List.replicate n 1) [0, 1] [1, 2] [false, false] 1
      [] [] "X" true "delay" "boxcar" [] [] = .error PyErr.nameError :=
  unknown_weights_mode_raises (fun _ n => List.replicate n 1) [0, 1] [1, 2]
    [false, false] 1 [] [] "X" true "delay" "boxcar" [] [] (by decide) (by decide)

/-- C9: whenever the transform stage succeeds and the output domain is not
`"frequency"`, the pipeline returns the delay axis
`arange(-nf/2, nf/2) / ((freqs[1]-freqs[0])·nf)` and the fft-shifted forward
transform, whose middle entry (index `nf/2`) is the zero-delay bin `s 0`. -/
theorem delay_domain_output
    (getW : String → ℕ → List ℝ) (freqs : List ℝ) (ydata : List ℂ)
    (flags : List Bool) (ff : ℝ) (pc pw : List ℝ) (weights : String) (zf : Bool)
    (dom tn : String) (sc g : Cache) (s : Fin freqs.length → ℂ)
    (hdom : dom ≠ "frequency") (h2 : 2 ≤ freqs.length)
    (h : dedekindFv getW freqs ydata flags ff pc pw weights zf tn sc g = .ok s) :
    dedekind getW freqs ydata flags ff pc pw weights zf dom tn sc g =
      .ok (List.ofFn (fun k : Fin freqs.length =>
            ((k : ℝ) - (freqs.length : ℝ) / 2) /
              ((freqs.get ⟨1, by omega⟩ - freqs.get ⟨0, by omega⟩) * (freqs.length : ℝ))),
          List.ofFn (fftshiftVec freqs.length s)) ∧
      (List.ofFn (fftshiftVec freqs.length s)).get
          ⟨freqs.length / 2, by rw [List.length_ofFn]; omega⟩ = s ⟨0, by omega⟩ := by
  constructor
  · rw [dedekind_oks getW freqs ydata flags ff pc pw weights zf dom tn sc g s h]
    unfold dedekindOut
    rw [if_neg hdom, dif_pos h2]
  · rw [List.get_ofFn]
    show fftshiftVec freqs.length s _ = _
    unfold fftshiftVec
    congr 1
    apply Fin.ext
    show (freqs.length / 2 + (freqs.length + 1) / 2) % freqs.length = 0
    have hsum : freqs.length / 2 + (freqs.length + 1) / 2 = freqs.length := by omega
    rw [hsum, Nat.mod_self]

/-- Witness for C9: two channels, identity weights, delay output. -/
theorem delay_domain_output_witness :
    ∃ s : Fin ([(0 : ℝ), 1].length) → ℂ,
      dedekindFv (fun _ n => List.replicate n 1) [(0 : ℝ), 1] [(1 : ℂ), 2] []
          1 [] [] "I" false "boxcar" [] [] = .ok s ∧
      dedekind (fun _ n => List.replicate n 1) [(0 : ℝ), 1] [(1 : ℂ), 2] []
          1 [] [] "I" false "delay" "boxcar" [] [] =
        .ok (List.ofFn (fun k : Fin ([(0 : ℝ), 1].length) =>
              ((k : ℝ) - (([(0 : ℝ), 1].length : ℕ) : ℝ) / 2) /
                (([(0 : ℝ), 1].get ⟨1, by norm_num⟩ - [(0 : ℝ), 1].get ⟨0, by norm_num⟩) *
                  (([(0 : ℝ), 1].length : ℕ) : ℝ))),
            List.ofFn (fftshiftVec ([(0 : ℝ), 1].length) s)) ∧
      (List.ofFn (fftshiftVec ([(0 : ℝ), 1].length) s)).get
          ⟨[(0 : ℝ), 1].length / 2, by simp⟩ = s ⟨0, by norm_num⟩ := by
  have hwm : dedekindWmatE [(0 : ℝ), 1] [] 1 [] [] "I" false [] [] =
      .ok (1 : Matrix (Fin ([(0 : ℝ), 1].length)) (Fin ([(0 : ℝ), 1].length)) ℂ) := by
    unfold dedekindWmatE
    rw [if_pos rfl]
    rfl
  have happ : dedekindApply (fun _ n => List.replicate n 1) "boxcar"
      [(0 : ℝ), 1] [(1 : ℂ), 2]
      (1 : Matrix (Fin ([(0 : ℝ), 1].length)) (Fin ([(0 : ℝ), 1].length)) ℂ) = .ok
      (fftVec ([(0 : ℝ), 1].length) (fun i =>
        (1 : Matrix (Fin ([(0 : ℝ), 1].length)) (Fin ([(0 : ℝ), 1].length)) ℂ).mulVec
          (fun j => [(1 : ℂ), 2].get ⟨j, j.isLt⟩) i *
        ((taperNorm (fun _ n => List.replicate n 1) "boxcar" ([(0 : ℝ), 1].length) i : ℝ) : ℂ))) := by
    unfold dedekindApply
    rw [dif_pos (show ([(1 : ℂ), 2].length = [(0 : ℝ), 1].length) from rfl),
      if_neg (by norm_num),
      if_pos (show ((fun _ n => List.replicate n 1 : String → ℕ → List ℝ)
        "boxcar" [(0 : ℝ), 1].length).length = [(0 : ℝ), 1].length from rfl)]
  have hfv := (dedekindFv_okw (fun _ n => List.replicate n 1) [(0 : ℝ), 1]
    [(1 : ℂ), 2] [] 1 [] [] "I" false "boxcar" [] [] 1 hwm).trans happ
  have hmain := delay_domain_output (fun _ n => List.replicate n 1) [(0 : ℝ), 1]
    [(1 : ℂ), 2] [] 1 [] [] "I" false "delay" "boxcar" [] [] _
    (by decide) (by norm_num) hfv
  exact ⟨_, hfv, hmain.1, hmain.2⟩

/-- C5: with `zero_flags` on, in both `"I"` and `"WTL"` modes (run against a
fresh module cache), the pipeline output does not depend on the data at
flagged channels: two inputs agreeing on all unflagged channels produce the
same result.  The applied operator has zero columns at flagged indices — in
`"WTL"` mode because flag-zeroing makes the corresponding rows of the
inverse filter zero and the zero rows survive the pseudo-inverse as zero
columns. -/
theorem flagged_data_has_no_influence
    (getW : String → ℕ → List ℝ) (freqs : List ℝ) (d₁ d₂ : List ℂ)
    (flags : List Bool) (ff : ℝ) (pc pw : List ℝ) (weights : String)
    (dom tn : String) (sc : Cache)
    (hw : weights = "I" ∨ weights = "WTL")
    (hlen : d₁.length = d₂.length)
    (hagree : ∀ (i : ℕ) (h₁ : i < d₁.length) (h₂ : i < d₂.length),
        flags.getD i false = false → d₁.get ⟨i, h₁⟩ = d₂.get ⟨i, h₂⟩) :
    dedekind getW freqs d₁ flags ff pc pw weights true dom tn sc [] =
      dedekind getW freqs d₂ flags ff pc pw weights true dom tn sc [] := by
  cases hwm : dedekindWmatE freqs flags ff pc pw weights true sc [] with
  | error e =>
    rw [dedekind_err getW freqs d₁ flags ff pc pw weights true dom tn sc [] e
        (dedekindFv_err getW freqs d₁ flags ff pc pw weights true tn sc [] e hwm),
      dedekind_err getW freqs d₂ flags ff pc pw weights true dom tn sc [] e
        (dedekindFv_err getW freqs d₂ flags ff pc pw weights true tn sc [] e hwm)]
  | ok wmat =>
    have hcol : ∀ (i j : Fin freqs.length),
        flags.getD (j : ℕ) false = true → wmat i j = 0 :=
      fun i j hf =>
        dedekindWmatE_flagged_col_zero freqs flags ff pc pw weights sc hw wmat hwm i j hf
    have happly : dedekindApply getW tn freqs d₁ wmat =
        dedekindApply getW tn freqs d₂ wmat := by
      unfold dedekindApply
      by_cases hy1 : d₁.length = freqs.length
      · have hy2 : d₂.length = freqs.length := by rw [← hlen]; exact hy1
        rw [dif_pos hy1, dif_pos hy2]
        have hvec : wmat.mulVec (fun j : Fin freqs.length => d₁.get ⟨j, by omega⟩) =
            wmat.mulVec (fun j : Fin freqs.length => d₂.get ⟨j, by omega⟩) := by
          funext i
          unfold Matrix.mulVec Matrix.dotProduct
          apply Finset.sum_congr rfl
          intro j _
          dsimp only
          by_cases hfj : flags.getD (j : ℕ) false = true
          · rw [hcol i j hfj, zero_mul, zero_mul]
          · have hfj' : flags.getD (j : ℕ) false = false := by
              cases hb : flags.getD (j : ℕ) false
              · rfl
              · exact absurd hb hfj
            rw [hagree j (by omega) (by omega) hfj']
        rw [hvec]
      · have hy2 : ¬ d₂.length = freqs.length := by rw [← hlen]; exact hy1
        rw [dif_neg hy1, dif_neg hy2]
    have h1 := dedekindFv_okw getW freqs d₁ flags ff pc pw weights true tn sc [] wmat hwm
    have h2 := dedekindFv_okw getW freqs d₂ flags ff pc pw weights true tn sc [] wmat hwm
    unfold dedekind
    rw [h1, h2, happly]

/-- Witness for C5: channel 0 flagged, `"WTL"` mode with no patches; the two
inputs differ only at the flagged channel and produce identical runs. -/
theorem flagged_data_has_no_influence_witness :
    dedekind (fun _ n => List.replicate n 1) [(0 : ℝ), 1] [(5 : ℂ), 7]
        [true, false] 1 [] [] "WTL" true "delay" "boxcar" [] [] =
      dedekind (fun _ n => List.replicate n 1) [(0 : ℝ), 1] [(3 : ℂ), 7]
        [true, false] 1 [] [] "WTL" true "delay" "boxcar" [] [] :=
  flagged_data_has_no_influence (fun _ n => List.replicate n 1) [(0 : ℝ), 1]
    [(5 : ℂ), 7] [(3 : ℂ), 7] [true, false] 1 [] [] "WTL" "delay" "boxcar" []
    (Or.inr rfl) rfl
    (by
      intro i h₁ h₂ hf
      match i with
      | 0 => simp at hf
      | 1 => rfl
      | n + 2 => exact absurd h₁ (by simp))
